import Mathlib

/-!
Verification of the `obfuscate` crate's algorithmic core: the DJB2-XOR
string hasher (`src/hash.rs`), the splitmix-based entropy engine
(`src/lib.rs`), and the UTF-8 → UTF-16 wide-string transcoder
(`src/wide.rs`).

Byte strings are embedded as `List Nat` (each element a byte value);
machine integers are `Nat` with explicit `% 2 ^ 32` / `% 2 ^ 64` where the
Rust code uses wrapping arithmetic.
-/

namespace Obfuscate

/-! ### Hasher, from `src/hash.rs`

`hash_utf8` and `hash_bytes` share a byte-for-byte identical loop: skip NUL
bytes, add `0x20` to any byte `≤ 0x5A`, and fold with
`result = result.wrapping_mul(33) ^ value` starting from `3581`.
-/

def hashLoop : List Nat → Nat → Nat
  | [], result => result
  | val :: rest, result =>
    if val = 0 then hashLoop rest result
    else hashLoop rest ((result * 33 % 2 ^ 32) ^^^ (if val ≤ 0x5A then val + 0x20 else val))

def hash_utf8 (source : List Nat) : Nat := hashLoop source 3581

def hash_bytes (buf : List Nat) : Nat := hashLoop buf 3581

/-- `hash_cstr` runs the same fold but terminates at the first NUL byte
(`break`) instead of skipping it.  The input models
`CStr::to_bytes_with_nul`, i.e. the bytes including the terminator. -/
def hash_cstrLoop : List Nat → Nat → Nat
  | [], result => result
  | val :: rest, result =>
    if val = 0 then result
    else hash_cstrLoop rest ((result * 33 % 2 ^ 32) ^^^ (if val ≤ 0x5A then val + 0x20 else val))

def hash_cstr (buf : List Nat) : Nat := hash_cstrLoop buf 3581

/-- The hash loop as described by claim C1: a non-NUL byte is case-folded
(`+ 0x20`) if and only if it lies in the ASCII uppercase range
`0x41..=0x5A`; every other byte enters the fold unchanged. -/
def hashLoopClaim : List Nat → Nat → Nat
  | [], result => result
  | val :: rest, result =>
    if val = 0 then hashLoopClaim rest result
    else hashLoopClaim rest
      ((result * 33 % 2 ^ 32) ^^^ (if 0x41 ≤ val ∧ val ≤ 0x5A then val + 0x20 else val))

def hash_bytes_claim (buf : List Nat) : Nat := hashLoopClaim buf 3581

/-- Per-byte fold contribution under the amended reading of C1: every
non-NUL byte value `≤ 0x5A` (not only `A..Z`) is folded by adding `0x20`. -/
def foldedByte (val : Nat) : Nat := if val ≤ 0x5A then val + 0x20 else val

/-- The amended claim C1 as a left fold over the byte sequence. -/
def hashFoldAmended (buf : List Nat) : Nat :=
  buf.foldl (fun result val => if val = 0 then result else (result * 33 % 2 ^ 32) ^^^ foldedByte val) 3581

/-- ASCII uppercasing used by claim C7: map each byte in `a..z` to the
corresponding byte in `A..Z`, leaving all other bytes unchanged. -/
def uppercase_ascii (buf : List Nat) : List Nat :=
  buf.map fun b => if 0x61 ≤ b ∧ b ≤ 0x7A then b - 0x20 else b

/-- The bytes of the string literal `"Hello World"`. -/
def helloWorld : List Nat := [0x48, 0x65, 0x6C, 0x6C, 0x6F, 0x20, 0x57, 0x6F, 0x72, 0x6C, 0x64]

/-! ### Entropy engine, from `src/lib.rs` -/

/-- `splitmix`: wrapping 64-bit finalizer-style mix. -/
def splitmix (seed : Nat) : Nat :=
  let next := (seed + 0x9E3779B97F4A7C15) % 2 ^ 64
  let z := next
  let z := ((z ^^^ (z >>> 30)) * 0xBF58476D1CE4E5B9) % 2 ^ 64
  let z := ((z ^^^ (z >>> 27)) * 0x94D049BB133111EB) % 2 ^ 64
  z ^^^ (z >>> 31)

/-- Modelled from the spec: `src/lib.rs` calls `hash`, re-exported from the
hash module, but no function named `hash` is among the sources; the spec's
entropy contract names it `hash_utf8` ("splitmix(SEED XOR
splitmix(hash_utf8(key) as u64))"), so `hash` is identified with
`hash_utf8`. -/
def hash (source : List Nat) : Nat := hash_utf8 source

/-- The bytes of the fallback seed string literal `"FIXED"`. -/
def FIXED : List Nat := [0x46, 0x49, 0x58, 0x45, 0x44]

/-- The process-wide seed.  The optional value of the `ENTROPY_SEED`
environment variable (read by `option_env!`) is passed explicitly as
`entropySeedEnv`. -/
def SEED (entropySeedEnv : Option (List Nat)) : Nat :=
  splitmix (hash (match entropySeedEnv with
    | some seed => seed
    | none => FIXED))

def entropy (entropySeedEnv : Option (List Nat)) (string : List Nat) : Nat :=
  splitmix (SEED entropySeedEnv ^^^ splitmix (hash string))

/-- `splitmix` as worded by the spec: `next = seed + 0x9E3779B97F4A7C15`
(wrapping add); `z = (next XOR (next >> 30)) * 0xBF58476D1CE4E5B9`
(wrapping); `z = (z XOR (z >> 27)) * 0x94D049BB133111EB` (wrapping);
return `z XOR (z >> 31)`. -/
def splitmixSpec (seed : Nat) : Nat :=
  let next := (seed + 0x9E3779B97F4A7C15) % 2 ^ 64
  let z1 := ((next ^^^ (next >>> 30)) * 0xBF58476D1CE4E5B9) % 2 ^ 64
  let z2 := ((z1 ^^^ (z1 >>> 27)) * 0x94D049BB133111EB) % 2 ^ 64
  z2 ^^^ (z2 >>> 31)

/-- `SEED` as worded by claim C2: `splitmix(hash_utf8(override-or-"FIXED")
zero-extended to u64)`. -/
def SEEDSpec (entropySeedEnv : Option (List Nat)) : Nat :=
  splitmixSpec (hash_utf8 (entropySeedEnv.getD FIXED) % 2 ^ 64)

/-- `entropy` as worded by claim C2: `splitmix(SEED XOR
splitmix(hash_utf8(key) zero-extended to u64))`. -/
def entropySpec (entropySeedEnv : Option (List Nat)) (key : List Nat) : Nat :=
  splitmixSpec (SEEDSpec entropySeedEnv ^^^ splitmixSpec (hash_utf8 key % 2 ^ 64))

/-! ### Typed float extraction, from the `__random_cast!` arms in `src/lib.rs`

The `f32` arm builds the bit pattern
`0b0_01111111 << 23 | ($seed as u32 >> 9)`; the `f64` arm builds
`0b0_01111111111 << 52 | ($seed >> 12)`.  `$seed as u32` truncates the
64-bit entropy value to its low 32 bits.
-/

def random_cast_f32_bits (seed : Nat) : Nat :=
  (0x7F <<< 23) ||| (seed % 2 ^ 32 >>> 9)

def random_cast_f64_bits (seed : Nat) : Nat :=
  (0x3FF <<< 52) ||| (seed >>> 12)

def f32_sign (bits : Nat) : Nat := bits >>> 31 % 2

def f32_exponent (bits : Nat) : Nat := bits >>> 23 % 2 ^ 8

def f32_mantissa (bits : Nat) : Nat := bits % 2 ^ 23

def f64_sign (bits : Nat) : Nat := bits >>> 63 % 2

def f64_exponent (bits : Nat) : Nat := bits >>> 52 % 2 ^ 11

def f64_mantissa (bits : Nat) : Nat := bits % 2 ^ 52

/-- IEEE-754 value of a normal binary32 bit pattern, as an exact rational. -/
def f32_value (bits : Nat) : ℚ :=
  (if f32_sign bits = 0 then 1 else -1) *
    (2 : ℚ) ^ ((f32_exponent bits : ℤ) - 127) * (1 + (f32_mantissa bits : ℚ) / 2 ^ 23)

/-- IEEE-754 value of a normal binary64 bit pattern, as an exact rational. -/
def f64_value (bits : Nat) : ℚ :=
  (if f64_sign bits = 0 then 1 else -1) *
    (2 : ℚ) ^ ((f64_exponent bits : ℤ) - 1023) * (1 + (f64_mantissa bits : ℚ) / 2 ^ 52)

/-- The f32 mantissa as claim C4 words it: "the high-order 23 bits of the
64-bit value v after discarding the bottom 9 bits", i.e. bits 41..63 of
`v`. -/
def f32_mantissa_claimed (v : Nat) : Nat := v >>> 9 >>> 32

/-! ### Wide encoder, from `src/wide.rs` -/

namespace Wide

/-- The UTF-8 decoding step `next`: classify the lead byte by its high
bits, in the source's match-arm order, returning the decoded code point
and the remaining bytes, or `none`. -/
def next : List Nat → Option (Nat × List Nat)
  | [] => none
  | a :: t1 =>
    if a &&& 0x80 = 0x00 then some (a, t1)
    else
      match t1 with
      | [] => none
      | b :: t2 =>
        if a &&& 0xE0 = 0xC0 then some (((a &&& 0x1F) <<< 6) ||| (b &&& 0x3F), t2)
        else
          match t2 with
          | [] => none
          | c :: t3 =>
            if a &&& 0xF0 = 0xE0 then
              some ((((a &&& 0x0F) <<< 12) ||| ((b &&& 0x3F) <<< 6)) ||| (c &&& 0x3F), t3)
            else
              match t3 with
              | [] => none
              | d :: t4 =>
                if a &&& 0xF8 = 0xF0 then
                  some (((((a &&& 0x07) <<< 18) ||| ((b &&& 0x3F) <<< 12)) |||
                    ((c &&& 0x3F) <<< 6)) ||| (d &&& 0x3F), t4)
                else none

/-- `len`: total UTF-16 code-unit count, accumulated exactly as the
source's `while let` loop does. -/
def len (bytes : List Nat) : Nat :=
  match h : next bytes with
  | none => 0
  | some (chr, tail) => (if 0x10000 ≤ chr then 2 else 1) + len tail
termination_by bytes.length
decreasing_by
  all_goals
    (have key : ∀ (bs : List Nat) (cp : Nat) (tl : List Nat),
        next bs = some (cp, tl) → tl.length < bs.length := by
      intro bs cp tl hs
      rcases bs with _ | ⟨a, _ | ⟨b, _ | ⟨c, _ | ⟨d, t⟩⟩⟩⟩ <;>
        simp only [next] at hs <;>
        repeat' split at hs
      all_goals (cases hs; try simp; try omega)
     exact key _ _ _ h)

/-- A bounds-checked array write: models the Rust `data[i] = v` statement,
whose out-of-bounds case is an index panic, as `none`. -/
def arrayWrite (data : List Nat) (i : Nat) (v : Nat) : Option (List Nat) :=
  if i < data.length then some (data.set i v) else none

/-- The `encode::<LEN>` loop body: walk the decoded code points, writing
one unit (or a surrogate pair) per code point at the running index. -/
def encodeLoop (bytes : List Nat) (data : List Nat) (i : Nat) : Option (List Nat) :=
  match h : next bytes with
  | none => some data
  | some (chr, tail) =>
    if 0x10000 ≤ chr then
      match arrayWrite data i ((0xD800 + (chr - 0x10000) / 0x400) % 2 ^ 16) with
      | none => none
      | some data1 =>
        match arrayWrite data1 (i + 1) ((0xDC00 + (chr - 0x10000) % 0x400) % 2 ^ 16) with
        | none => none
        | some data2 => encodeLoop tail data2 (i + 2)
    else
      match arrayWrite data i (chr % 2 ^ 16) with
      | none => none
      | some data1 => encodeLoop tail data1 (i + 1)
termination_by bytes.length
decreasing_by
  all_goals
    (have key : ∀ (bs : List Nat) (cp : Nat) (tl : List Nat),
        next bs = some (cp, tl) → tl.length < bs.length := by
      intro bs cp tl hs
      rcases bs with _ | ⟨a, _ | ⟨b, _ | ⟨c, _ | ⟨d, t⟩⟩⟩⟩ <;>
        simp only [next] at hs <;>
        repeat' split at hs
      all_goals (cases hs; try simp; try omega)
     exact key _ _ _ h)

/-- `encode::<LEN>(s)`: run the loop over a fresh `[0u16; LEN]` buffer. -/
def encode (LEN : Nat) (s : List Nat) : Option (List Nat) :=
  encodeLoop s (List.replicate LEN 0) 0

end Wide

/-! ### Well-formed UTF-8 input model

A Rust `&str` is a sequence of Unicode scalar values; `utf8EncodeChar` is
the standard UTF-8 encoding of one scalar value, written arithmetically.
-/

/-- A Unicode scalar value: below `0x110000` and not a surrogate. -/
def ScalarValue (c : Nat) : Prop := c < 0x110000 ∧ ¬(0xD800 ≤ c ∧ c < 0xE000)

instance (c : Nat) : Decidable (ScalarValue c) := by unfold ScalarValue; infer_instance

/-- Standard UTF-8 encoding of a single code point. -/
def utf8EncodeChar (c : Nat) : List Nat :=
  if c < 0x80 then [c]
  else if c < 0x800 then [0xC0 + c / 0x40, 0x80 + c % 0x40]
  else if c < 0x10000 then [0xE0 + c / 0x1000, 0x80 + c / 0x40 % 0x40, 0x80 + c % 0x40]
  else [0xF0 + c / 0x40000, 0x80 + c / 0x1000 % 0x40, 0x80 + c / 0x40 % 0x40, 0x80 + c % 0x40]

/-- UTF-8 encoding of a sequence of code points. -/
def utf8Encode (cs : List Nat) : List Nat := (cs.map utf8EncodeChar).flatten

/-- UTF-16 code units of one code point, as the spec words it: `c` itself
below `0x10000`, otherwise the surrogate pair. -/
def utf16Units (c : Nat) : List Nat :=
  if c < 0x10000 then [c]
  else [0xD800 + (c - 0x10000) / 0x400, 0xDC00 + (c - 0x10000) % 0x400]

/-- Expected UTF-16 encoding of a code-point sequence. -/
def utf16Encode (cs : List Nat) : List Nat := (cs.map utf16Units).flatten

/-- The spec-side length: 1 unit per code point below `0x10000`, 2 units
per code point at or above it. -/
def utf16LenSpec (cs : List Nat) : Nat :=
  (cs.map fun c => if c < 0x10000 then 1 else 2).sum

/-- Sequential overwrite of `data` starting at index `i` with the units
`us` — the net effect of the writes `encode` performs. -/
def overwrite : List Nat → Nat → List Nat → List Nat
  | data, _, [] => data
  | data, i, u :: us => overwrite (data.set i u) (i + 1) us

/-- Claim C9's malformed-position predicate: the first byte matches none
of the four lead-byte patterns, or the required trailing bytes are
missing. -/
def malformedAt (bs : List Nat) : Bool :=
  match bs with
  | [] => false
  | a :: tail =>
    (a &&& 0x80 != 0x00) &&
    (a &&& 0xE0 != 0xC0 || tail.length < 1) &&
    (a &&& 0xF0 != 0xE0 || tail.length < 2) &&
    (a &&& 0xF8 != 0xF0 || tail.length < 3)

end Obfuscate

/-! ## Helper lemmas -/

namespace Obfuscate

theorem two_pow_mul_lor_add {k b : Nat} (q : Nat) (hb : b < 2 ^ k) :
    (2 ^ k * q) ||| b = 2 ^ k * q + b := by
  apply Nat.eq_of_testBit_eq
  intro i
  rw [Nat.testBit_lor, Nat.testBit_mul_pow_two_add _ hb, Nat.testBit_mul_pow_two]
  by_cases hik : i < k
  · simp [hik, Nat.not_le.mpr hik]
  · have hbi : b.testBit i = false :=
      Nat.testBit_lt_two_pow
        (lt_of_lt_of_le hb (Nat.pow_le_pow_right (by norm_num) (Nat.not_lt.mp hik)))
    simp [hik, Nat.not_lt.mp hik, hbi]

theorem hashLoop_append (xs ys : List Nat) (r : Nat) :
    hashLoop (xs ++ ys) r = hashLoop ys (hashLoop xs r) := by
  induction xs generalizing r with
  | nil => rfl
  | cons v rest ih => by_cases hv : v = 0 <;> simp [hashLoop, hv, ih]

theorem hashLoop_eq_foldl (buf : List Nat) (r : Nat) :
    hashLoop buf r =
      buf.foldl (fun result val =>
        if val = 0 then result else (result * 33 % 2 ^ 32) ^^^ foldedByte val) r := by
  induction buf generalizing r with
  | nil => rfl
  | cons v rest ih => by_cases hv : v = 0 <;> simp [hashLoop, foldedByte, hv, ih]

theorem hashLoop_uppercase (buf : List Nat) (r : Nat) :
    hashLoop (uppercase_ascii buf) r = hashLoop buf r := by
  induction buf generalizing r with
  | nil => rfl
  | cons v rest ih =>
    simp only [uppercase_ascii, List.map_cons] at *
    by_cases hv : 0x61 ≤ v ∧ v ≤ 0x7A
    · have h1 : ¬(v - 0x20 = 0) := by omega
      have h2 : v - 0x20 ≤ 0x5A := by omega
      have h3 : ¬(v = 0) := by omega
      have h4 : ¬(v ≤ 0x5A) := by omega
      have h5 : v - 0x20 + 0x20 = v := by omega
      simp [hashLoop, if_pos hv, h1, h2, h3, h4, h5, ih]
    · by_cases h0 : v = 0 <;> simp [hashLoop, if_neg hv, h0, ih]

theorem hash_cstrLoop_first_nul (pre post : List Nat) (r : Nat) (h : ∀ b ∈ pre, b ≠ 0) :
    hash_cstrLoop (pre ++ 0 :: post) r = hashLoop pre r := by
  induction pre generalizing r with
  | nil => rfl
  | cons v rest ih =>
    have hv : v ≠ 0 := h v (by simp)
    have hrest : ∀ b ∈ rest, b ≠ 0 := fun b hb => h b (by simp [hb])
    simp only [List.cons_append, hash_cstrLoop, hashLoop, if_neg hv]
    exact ih _ hrest

theorem hashLoop_lt (buf : List Nat) (r : Nat) (hr : r < 2 ^ 32)
    (hb : ∀ b ∈ buf, b < 256) : hashLoop buf r < 2 ^ 32 := by
  induction buf generalizing r with
  | nil => exact hr
  | cons v rest ih =>
    have hv : v < 256 := hb v (by simp)
    have hrest : ∀ b ∈ rest, b < 256 := fun b hbm => hb b (by simp [hbm])
    by_cases h0 : v = 0
    · simpa [hashLoop, h0] using ih r hr hrest
    · have hval : (if v ≤ 0x5A then v + 0x20 else v) < 2 ^ 32 := by
        split <;> omega
      have hmul : r * 33 % 2 ^ 32 < 2 ^ 32 := Nat.mod_lt _ (by norm_num)
      simpa [hashLoop, h0] using ih _ (Nat.xor_lt_two_pow hmul hval) hrest

/-! ## Claim theorems: Hasher -/

/-- C1 (counterexample): the code's fold condition is `val ≤ 0x5A`, not the
ASCII uppercase range: on the single byte `0x30` (the digit `'0'`, outside
`A..Z`) the hash differs from the claim's fold, which would leave `0x30`
unchanged. -/
theorem hash_fold_claim_counterexample :
    hash_bytes [0x30] ≠ hash_bytes_claim [0x30] := by decide

/-- C1 (amended): in `hash_utf8` and `hash_bytes`, a non-NUL byte is
case-folded (`0x20` added) if and only if its value is at most `0x5A` —
every non-NUL byte `≤ 0x5A`, including digits, punctuation and control
bytes, is folded, not only `A..Z`; bytes above `0x5A` enter the fold
`result = (result * 33) XOR byte` (wrapping, initial 3581) unchanged. -/
theorem hash_fold_le_5A (buf : List Nat) :
    hash_utf8 buf = hashFoldAmended buf ∧ hash_bytes buf = hashFoldAmended buf :=
  ⟨hashLoop_eq_foldl buf 3581, hashLoop_eq_foldl buf 3581⟩

/-- C5: the golden fixture `hash_utf8("Hello World") = 0x6520f29d` holds. -/
theorem hash_utf8_hello_world : hash_utf8 helloWorld = 0x6520f29d := by decide

/-- C6: appending three trailing NUL bytes never changes `hash_bytes`. -/
theorem hash_bytes_trailing_nuls (b : List Nat) :
    hash_bytes b = hash_bytes (b ++ [0, 0, 0]) := by
  rw [hash_bytes, hash_bytes, hashLoop_append]
  rfl

/-- C7: on pure-ASCII input, `hash_utf8` is invariant under ASCII
uppercasing. -/
theorem hash_utf8_uppercase (s : List Nat) (h : ∀ b ∈ s, b < 0x80) :
    hash_utf8 s = hash_utf8 (uppercase_ascii s) :=
  (hashLoop_uppercase s 3581).symm

theorem hash_utf8_uppercase_witness :
    (∀ b ∈ [0x48, 0x65, 0x6C, 0x6C, 0x6F], b < 0x80) ∧
      hash_utf8 [0x48, 0x65, 0x6C, 0x6C, 0x6F] =
        hash_utf8 (uppercase_ascii [0x48, 0x65, 0x6C, 0x6C, 0x6F]) :=
  ⟨by decide, hash_utf8_uppercase _ (by decide)⟩

/-- C8: `hash_cstr` stops at the first NUL byte and agrees with
`hash_bytes` on the NUL-free prefix before it; in particular the bytes
after the first NUL are immaterial. -/
theorem hash_cstr_stops_at_first_nul (pre post : List Nat) (h : ∀ b ∈ pre, b ≠ 0) :
    hash_cstr (pre ++ 0 :: post) = hash_bytes pre ∧
      hash_cstr (pre ++ 0 :: post) = hash_cstr (pre ++ [0]) := by
  refine ⟨hash_cstrLoop_first_nul pre post 3581 h, ?_⟩
  rw [hash_cstr, hash_cstr, hash_cstrLoop_first_nul pre post 3581 h,
    hash_cstrLoop_first_nul pre [] 3581 h]

theorem hash_cstr_stops_at_first_nul_witness :
    (∀ b ∈ [0x61, 0x62], b ≠ 0) ∧
      (hash_cstr ([0x61, 0x62] ++ 0 :: [0x63, 0x64, 0]) = hash_bytes [0x61, 0x62] ∧
        hash_cstr ([0x61, 0x62] ++ 0 :: [0x63, 0x64, 0]) = hash_cstr ([0x61, 0x62] ++ [0])) :=
  ⟨by decide, hash_cstr_stops_at_first_nul [0x61, 0x62] [0x63, 0x64, 0] (by decide)⟩

end Obfuscate

namespace Obfuscate

theorem hash_utf8_lt (buf : List Nat) (hb : ∀ b ∈ buf, b < 256) :
    hash_utf8 buf < 2 ^ 32 :=
  hashLoop_lt buf 3581 (by norm_num) hb

/-- C2: `entropy(key)` equals
`splitmix(SEED XOR splitmix(hash_utf8(key) zero-extended to u64))`, where
`SEED = splitmix(hash_utf8(override-or-"FIXED") as u64)` and `splitmix` is
the spec's three-step wrapping 64-bit mix, for every byte-string key and
every state of the `ENTROPY_SEED` override. -/
theorem entropy_eq_spec (entropySeedEnv : Option (List Nat)) (key : List Nat)
    (hkey : ∀ b ∈ key, b < 256)
    (henv : ∀ b ∈ entropySeedEnv.getD FIXED, b < 256) :
    entropy entropySeedEnv key = entropySpec entropySeedEnv key := by
  have h1 : hash_utf8 key % 2 ^ 64 = hash_utf8 key :=
    Nat.mod_eq_of_lt (lt_trans (hash_utf8_lt key hkey) (by norm_num))
  have h2 : hash_utf8 (entropySeedEnv.getD FIXED) % 2 ^ 64 =
      hash_utf8 (entropySeedEnv.getD FIXED) :=
    Nat.mod_eq_of_lt (lt_trans (hash_utf8_lt _ henv) (by norm_num))
  unfold entropy entropySpec SEED SEEDSpec splitmix splitmixSpec hash
  cases entropySeedEnv <;> simp_all [Option.getD]

theorem entropy_eq_spec_witness :
    ((∀ b ∈ [0x61], b < 256) ∧ (∀ b ∈ (some [0x41] : Option (List Nat)).getD FIXED, b < 256)) ∧
      entropy (some [0x41]) [0x61] = entropySpec (some [0x41]) [0x61] :=
  ⟨⟨by decide, by decide⟩, entropy_eq_spec (some [0x41]) [0x61] (by decide) (by decide)⟩

end Obfuscate

namespace Obfuscate

theorem random_cast_f32_bits_eq (v : Nat) :
    random_cast_f32_bits v = 0x7F * 2 ^ 23 + v % 2 ^ 32 >>> 9 := by
  have hm : v % 2 ^ 32 >>> 9 < 2 ^ 23 := by
    rw [Nat.shiftRight_eq_div_pow]
    have : v % 2 ^ 32 < 2 ^ 32 := Nat.mod_lt _ (by norm_num)
    omega
  rw [random_cast_f32_bits, Nat.shiftLeft_eq, mul_comm, two_pow_mul_lor_add _ hm, mul_comm]

theorem random_cast_f64_bits_eq (v : Nat) (hv : v < 2 ^ 64) :
    random_cast_f64_bits v = 0x3FF * 2 ^ 52 + v >>> 12 := by
  have hm : v >>> 12 < 2 ^ 52 := by
    rw [Nat.shiftRight_eq_div_pow]
    omega
  rw [random_cast_f64_bits, Nat.shiftLeft_eq, mul_comm, two_pow_mul_lor_add _ hm, mul_comm]

/-- C4 (counterexample): the code's f32 mantissa is taken from the low 32
bits of the entropy value (`$seed as u32 >> 9`), not from its high-order
bits: at `v = 2 ^ 41` the produced mantissa is `0`, while the claim's
"high-order 23 bits of the 64-bit value after discarding the bottom 9
bits" are `1`. -/
theorem random_cast_f32_mantissa_counterexample :
    f32_mantissa (random_cast_f32_bits (2 ^ 41)) = 0 ∧ f32_mantissa_claimed (2 ^ 41) = 1 ∧
      f32_mantissa (random_cast_f32_bits (2 ^ 41)) ≠ f32_mantissa_claimed (2 ^ 41) := by
  decide

/-- C4 (amended): for every 64-bit entropy value `v`, the f32 extraction
produces the bit pattern with sign 0, biased exponent `0x7F`, and 23-bit
mantissa the high-order 23 bits of the **low 32 bits** of `v` (that is,
`(v mod 2^32) >> 9`, bits 9..31 of `v`); the f64 extraction produces sign
0, biased exponent `0x3FF`, and 52-bit mantissa the high-order 52 bits of
`v` (`v >> 12`); both values lie in the half-open range `[1.0, 2.0)`. -/
theorem random_cast_float_fields (v : Nat) (hv : v < 2 ^ 64) :
    f32_sign (random_cast_f32_bits v) = 0 ∧
      f32_exponent (random_cast_f32_bits v) = 0x7F ∧
      f32_mantissa (random_cast_f32_bits v) = v % 2 ^ 32 >>> 9 ∧
      1 ≤ f32_value (random_cast_f32_bits v) ∧ f32_value (random_cast_f32_bits v) < 2 ∧
      f64_sign (random_cast_f64_bits v) = 0 ∧
      f64_exponent (random_cast_f64_bits v) = 0x3FF ∧
      f64_mantissa (random_cast_f64_bits v) = v >>> 12 ∧
      1 ≤ f64_value (random_cast_f64_bits v) ∧ f64_value (random_cast_f64_bits v) < 2 := by
  have hm32 : v % 2 ^ 32 >>> 9 < 2 ^ 23 := by
    rw [Nat.shiftRight_eq_div_pow]
    have : v % 2 ^ 32 < 2 ^ 32 := Nat.mod_lt _ (by norm_num)
    omega
  have hm64 : v >>> 12 < 2 ^ 52 := by
    rw [Nat.shiftRight_eq_div_pow]
    omega
  have hb32 := random_cast_f32_bits_eq v
  have hb64 := random_cast_f64_bits_eq v hv
  have hsign32 : f32_sign (random_cast_f32_bits v) = 0 := by
    rw [f32_sign, hb32, Nat.shiftRight_eq_div_pow]
    omega
  have hexp32 : f32_exponent (random_cast_f32_bits v) = 0x7F := by
    rw [f32_exponent, hb32, Nat.shiftRight_eq_div_pow]
    omega
  have hman32 : f32_mantissa (random_cast_f32_bits v) = v % 2 ^ 32 >>> 9 := by
    rw [f32_mantissa, hb32]
    omega
  have hsign64 : f64_sign (random_cast_f64_bits v) = 0 := by
    rw [f64_sign, hb64, Nat.shiftRight_eq_div_pow]
    omega
  have hexp64 : f64_exponent (random_cast_f64_bits v) = 0x3FF := by
    rw [f64_exponent, hb64, Nat.shiftRight_eq_div_pow]
    omega
  have hman64 : f64_mantissa (random_cast_f64_bits v) = v >>> 12 := by
    rw [f64_mantissa, hb64]
    omega
  have hval32 : f32_value (random_cast_f32_bits v) = 1 + ((v % 2 ^ 32 >>> 9 : Nat) : ℚ) / 2 ^ 23 := by
    rw [f32_value, hsign32, hexp32, hman32]
    norm_num
  have hval64 : f64_value (random_cast_f64_bits v) = 1 + ((v >>> 12 : Nat) : ℚ) / 2 ^ 52 := by
    rw [f64_value, hsign64, hexp64, hman64]
    norm_num
  refine ⟨hsign32, hexp32, hman32, ?_, ?_, hsign64, hexp64, hman64, ?_, ?_⟩
  · rw [hval32]
    have : (0 : ℚ) ≤ ((v % 2 ^ 32 >>> 9 : Nat) : ℚ) / 2 ^ 23 := by positivity
    linarith
  · rw [hval32]
    have : ((v % 2 ^ 32 >>> 9 : Nat) : ℚ) / 2 ^ 23 < 1 := by
      rw [div_lt_one (by positivity)]
      exact_mod_cast hm32
    linarith
  · rw [hval64]
    have : (0 : ℚ) ≤ ((v >>> 12 : Nat) : ℚ) / 2 ^ 52 := by positivity
    linarith
  · rw [hval64]
    have : ((v >>> 12 : Nat) : ℚ) / 2 ^ 52 < 1 := by
      rw [div_lt_one (by positivity)]
      exact_mod_cast hm64
    linarith

theorem random_cast_float_fields_witness :
    (5 : Nat) < 2 ^ 64 ∧
      (f32_sign (random_cast_f32_bits 5) = 0 ∧
        f32_exponent (random_cast_f32_bits 5) = 0x7F ∧
        f32_mantissa (random_cast_f32_bits 5) = 5 % 2 ^ 32 >>> 9 ∧
        1 ≤ f32_value (random_cast_f32_bits 5) ∧ f32_value (random_cast_f32_bits 5) < 2 ∧
        f64_sign (random_cast_f64_bits 5) = 0 ∧
        f64_exponent (random_cast_f64_bits 5) = 0x3FF ∧
        f64_mantissa (random_cast_f64_bits 5) = 5 >>> 12 ∧
        1 ≤ f64_value (random_cast_f64_bits 5) ∧ f64_value (random_cast_f64_bits 5) < 2) :=
  ⟨by norm_num, random_cast_float_fields 5 (by norm_num)⟩

end Obfuscate

namespace Obfuscate

theorem next_utf8EncodeChar {c : Nat} (hc : c < 0x110000) (rest : List Nat) :
    Wide.next (utf8EncodeChar c ++ rest) = some (c, rest) := by
  rw [utf8EncodeChar]
  by_cases h1 : c < 0x80
  · rw [if_pos h1]
    have g : c &&& 0x80 = 0 := (by decide : ∀ x < 0x80, x &&& 0x80 = 0) c h1
    simp [Wide.next, g]
  · rw [if_neg h1]
    by_cases h2 : c < 0x800
    · rw [if_pos h2]
      have hh : c / 0x40 < 0x20 := by omega
      have hm : c % 0x40 < 0x40 := by omega
      have g80 : (0xC0 + c / 0x40) &&& 0x80 = 0x80 :=
        (by decide : ∀ x < 0x20, (0xC0 + x) &&& 0x80 = 0x80) _ hh
      have gE0 : (0xC0 + c / 0x40) &&& 0xE0 = 0xC0 :=
        (by decide : ∀ x < 0x20, (0xC0 + x) &&& 0xE0 = 0xC0) _ hh
      have gmask : (0xC0 + c / 0x40) &&& 0x1F = c / 0x40 :=
        (by decide : ∀ x < 0x20, (0xC0 + x) &&& 0x1F = x) _ hh
      have gcont : (0x80 + c % 0x40) &&& 0x3F = c % 0x40 :=
        (by decide : ∀ x < 0x40, (0x80 + x) &&& 0x3F = x) _ hm
      simp only [List.cons_append, List.nil_append, Wide.next, g80, gE0, gmask, gcont]
      norm_num
      rw [Nat.shiftLeft_eq, mul_comm, two_pow_mul_lor_add _ (show c % 0x40 < 2 ^ 6 by omega)]
      omega
    · rw [if_neg h2]
      by_cases h3 : c < 0x10000
      · rw [if_pos h3]
        have hh : c / 0x1000 < 0x10 := by omega
        have hm1 : c / 0x40 % 0x40 < 0x40 := by omega
        have hm2 : c % 0x40 < 0x40 := by omega
        have g80 : (0xE0 + c / 0x1000) &&& 0x80 = 0x80 :=
          (by decide : ∀ x < 0x10, (0xE0 + x) &&& 0x80 = 0x80) _ hh
        have gC0 : (0xE0 + c / 0x1000) &&& 0xE0 = 0xE0 :=
          (by decide : ∀ x < 0x10, (0xE0 + x) &&& 0xE0 = 0xE0) _ hh
        have gF0 : (0xE0 + c / 0x1000) &&& 0xF0 = 0xE0 :=
          (by decide : ∀ x < 0x10, (0xE0 + x) &&& 0xF0 = 0xE0) _ hh
        have gmask : (0xE0 + c / 0x1000) &&& 0x0F = c / 0x1000 :=
          (by decide : ∀ x < 0x10, (0xE0 + x) &&& 0x0F = x) _ hh
        have gcont1 : (0x80 + c / 0x40 % 0x40) &&& 0x3F = c / 0x40 % 0x40 :=
          (by decide : ∀ x < 0x40, (0x80 + x) &&& 0x3F = x) _ hm1
        have gcont2 : (0x80 + c % 0x40) &&& 0x3F = c % 0x40 :=
          (by decide : ∀ x < 0x40, (0x80 + x) &&& 0x3F = x) _ hm2
        simp only [List.cons_append, List.nil_append, Wide.next, g80, gC0, gF0, gmask,
          gcont1, gcont2]
        norm_num
        rw [Nat.shiftLeft_eq, Nat.shiftLeft_eq, mul_comm (c / 0x1000) (2 ^ 12),
          two_pow_mul_lor_add _ (show c / 0x40 % 0x40 * 2 ^ 6 < 2 ^ 12 by omega)]
        rw [show 2 ^ 12 * (c / 0x1000) + c / 0x40 % 0x40 * 2 ^ 6 =
          2 ^ 6 * (2 ^ 6 * (c / 0x1000) + c / 0x40 % 0x40) by ring]
        rw [two_pow_mul_lor_add _ (show c % 0x40 < 2 ^ 6 by omega)]
        omega
      · rw [if_neg h3]
        have hh : c / 0x40000 < 0x08 := by omega
        have hm1 : c / 0x1000 % 0x40 < 0x40 := by omega
        have hm2 : c / 0x40 % 0x40 < 0x40 := by omega
        have hm3 : c % 0x40 < 0x40 := by omega
        have g80 : (0xF0 + c / 0x40000) &&& 0x80 = 0x80 :=
          (by decide : ∀ x < 0x08, (0xF0 + x) &&& 0x80 = 0x80) _ hh
        have gC0 : (0xF0 + c / 0x40000) &&& 0xE0 = 0xE0 :=
          (by decide : ∀ x < 0x08, (0xF0 + x) &&& 0xE0 = 0xE0) _ hh
        have gE0 : (0xF0 + c / 0x40000) &&& 0xF0 = 0xF0 :=
          (by decide : ∀ x < 0x08, (0xF0 + x) &&& 0xF0 = 0xF0) _ hh
        have gF8 : (0xF0 + c / 0x40000) &&& 0xF8 = 0xF0 :=
          (by decide : ∀ x < 0x08, (0xF0 + x) &&& 0xF8 = 0xF0) _ hh
        have gmask : (0xF0 + c / 0x40000) &&& 0x07 = c / 0x40000 :=
          (by decide : ∀ x < 0x08, (0xF0 + x) &&& 0x07 = x) _ hh
        have gcont1 : (0x80 + c / 0x1000 % 0x40) &&& 0x3F = c / 0x1000 % 0x40 :=
          (by decide : ∀ x < 0x40, (0x80 + x) &&& 0x3F = x) _ hm1
        have gcont2 : (0x80 + c / 0x40 % 0x40) &&& 0x3F = c / 0x40 % 0x40 :=
          (by decide : ∀ x < 0x40, (0x80 + x) &&& 0x3F = x) _ hm2
        have gcont3 : (0x80 + c % 0x40) &&& 0x3F = c % 0x40 :=
          (by decide : ∀ x < 0x40, (0x80 + x) &&& 0x3F = x) _ hm3
        simp only [List.cons_append, List.nil_append, Wide.next, g80, gC0, gE0, gF8, gmask,
          gcont1, gcont2, gcont3]
        norm_num
        rw [Nat.shiftLeft_eq, Nat.shiftLeft_eq, Nat.shiftLeft_eq,
          mul_comm (c / 0x40000) (2 ^ 18),
          two_pow_mul_lor_add _ (show c / 0x1000 % 0x40 * 2 ^ 12 < 2 ^ 18 by omega)]
        rw [show 2 ^ 18 * (c / 0x40000) + c / 0x1000 % 0x40 * 2 ^ 12 =
          2 ^ 12 * (2 ^ 6 * (c / 0x40000) + c / 0x1000 % 0x40) by ring]
        rw [two_pow_mul_lor_add _ (show c / 0x40 % 0x40 * 2 ^ 6 < 2 ^ 12 by omega)]
        rw [show 2 ^ 12 * (2 ^ 6 * (c / 0x40000) + c / 0x1000 % 0x40) + c / 0x40 % 0x40 * 2 ^ 6 =
          2 ^ 6 * (2 ^ 12 * (c / 0x40000) + 2 ^ 6 * (c / 0x1000 % 0x40) + c / 0x40 % 0x40)
          by ring]
        rw [two_pow_mul_lor_add _ (show c % 0x40 < 2 ^ 6 by omega)]
        omega

end Obfuscate

namespace Obfuscate

theorem next_none_of_malformed : ∀ bs : List Nat, malformedAt bs = true → Wide.next bs = none := by
  intro bs h
  rcases bs with _ | ⟨a, _ | ⟨b, _ | ⟨c, _ | ⟨d, t⟩⟩⟩⟩ <;>
    simp only [malformedAt, Bool.and_eq_true, Bool.or_eq_true, bne_iff_ne, ne_eq,
      decide_eq_true_eq, List.length_cons, List.length_nil] at h <;>
    norm_num at h <;>
    simp [Wide.next, h]
  obtain ⟨⟨h12, h3⟩, h4⟩ := h
  have h3x : ¬a &&& 240 = 224 := h3.resolve_right (by omega)
  have h4x : ¬a &&& 248 = 240 := h4.resolve_right (by omega)
  simp [h3x, h4x]

theorem len_of_next_none (bs : List Nat) (h : Wide.next bs = none) : Wide.len bs = 0 := by
  rw [Wide.len.eq_def]
  split
  · rfl
  · rename_i chr tail heq
    rw [h] at heq
    cases heq

theorem len_encodeChar_append {c : Nat} (hc : c < 0x110000) (bs : List Nat) :
    Wide.len (utf8EncodeChar c ++ bs) = (if 0x10000 ≤ c then 2 else 1) + Wide.len bs := by
  rw [Wide.len.eq_def]
  split
  · rename_i heq
    rw [next_utf8EncodeChar hc bs] at heq
    cases heq
  · rename_i chr tail heq
    rw [next_utf8EncodeChar hc bs] at heq
    cases heq
    rfl

theorem len_encode_append (cs bad : List Nat) (hbad : Wide.next bad = none)
    (hcs : ∀ c ∈ cs, c < 0x110000) :
    Wide.len (utf8Encode cs ++ bad) = utf16LenSpec cs := by
  induction cs with
  | nil => simpa [utf8Encode, utf16LenSpec] using len_of_next_none bad hbad
  | cons c cs ih =>
    have hc : c < 0x110000 := hcs c (by simp)
    have hcs2 : ∀ x ∈ cs, x < 0x110000 := fun x hx => hcs x (by simp [hx])
    have hsplit : utf8Encode (c :: cs) ++ bad = utf8EncodeChar c ++ (utf8Encode cs ++ bad) := by
      simp [utf8Encode]
    rw [hsplit, len_encodeChar_append hc, ih hcs2]
    simp only [utf16LenSpec, List.map_cons, List.sum_cons]
    by_cases hx : c < 0x10000
    · rw [if_pos hx, if_neg (by omega)]
    · rw [if_neg hx, if_pos (by omega)]

end Obfuscate

namespace Obfuscate

theorem overwrite_cons (x : Nat) (data : List Nat) (i : Nat) (us : List Nat) :
    overwrite (x :: data) (i + 1) us = x :: overwrite data i us := by
  induction us generalizing data i with
  | nil => rfl
  | cons u us ih => simp [overwrite, ih]

theorem overwrite_full : ∀ us : List Nat, overwrite (List.replicate us.length 0) 0 us = us := by
  intro us
  induction us with
  | nil => rfl
  | cons u us ih =>
    simp only [List.length_cons, List.replicate_succ, overwrite, List.set_cons_zero]
    rw [show (0 + 1 : Nat) = 0 + 1 from rfl, overwrite_cons, ih]

theorem utf16Encode_length (cs : List Nat) : (utf16Encode cs).length = utf16LenSpec cs := by
  induction cs with
  | nil => rfl
  | cons c cs ih =>
    simp only [utf16Encode, utf16LenSpec, List.map_cons, List.flatten_cons, List.length_append,
      List.sum_cons] at *
    rw [ih, utf16Units]
    split <;> simp

theorem arrayWrite_lt (data : List Nat) {i : Nat} (v : Nat) (h : i < data.length) :
    Wide.arrayWrite data i v = some (data.set i v) := if_pos h

theorem encodeLoop_of_next_none (bs data : List Nat) (i : Nat) (h : Wide.next bs = none) :
    Wide.encodeLoop bs data i = some data := by
  rw [Wide.encodeLoop.eq_def]
  split
  · rfl
  · rename_i chr tail heq
    rw [h] at heq
    cases heq

theorem encodeLoop_spec (cs bad : List Nat) (hbad : Wide.next bad = none) :
    ∀ (data : List Nat) (i : Nat), (∀ c ∈ cs, c < 0x110000) →
      i + utf16LenSpec cs ≤ data.length →
      Wide.encodeLoop (utf8Encode cs ++ bad) data i = some (overwrite data i (utf16Encode cs)) := by
  induction cs with
  | nil =>
    intro data i _ _
    simpa [utf8Encode, utf16Encode, overwrite] using encodeLoop_of_next_none bad data i hbad
  | cons c cs ih =>
    intro data i hcs hlen
    have hc : c < 0x110000 := hcs c (by simp)
    have hcs2 : ∀ x ∈ cs, x < 0x110000 := fun x hx => hcs x (by simp [hx])
    have hsplit : utf8Encode (c :: cs) ++ bad = utf8EncodeChar c ++ (utf8Encode cs ++ bad) := by
      simp [utf8Encode]
    rw [hsplit, Wide.encodeLoop.eq_def]
    split
    · rename_i heq
      rw [next_utf8EncodeChar hc] at heq
      cases heq
    · rename_i chr tail heq
      rw [next_utf8EncodeChar hc] at heq
      cases heq
      by_cases hbig : 0x10000 ≤ c
      · rw [if_pos hbig]
        have hlen2 : utf16LenSpec (c :: cs) = 2 + utf16LenSpec cs := by
          simp only [utf16LenSpec, List.map_cons, List.sum_cons,
            if_neg (show ¬c < 0x10000 by omega)]
        rw [hlen2] at hlen
        have hi : i < data.length := by omega
        have hi2 : i + 1 < data.length := by omega
        have hhi : (0xD800 + (c - 0x10000) / 0x400) % 2 ^ 16 =
            0xD800 + (c - 0x10000) / 0x400 := Nat.mod_eq_of_lt (by omega)
        have hlo : (0xDC00 + (c - 0x10000) % 0x400) % 2 ^ 16 =
            0xDC00 + (c - 0x10000) % 0x400 := Nat.mod_eq_of_lt (by omega)
        rw [arrayWrite_lt data _ hi]
        dsimp only
        rw [arrayWrite_lt _ _ (by simpa using hi2)]
        dsimp only
        rw [ih _ _ hcs2 (by simp only [List.length_set]; omega)]
        refine congrArg some ?_
        rw [show utf16Encode (c :: cs) = (0xD800 + (c - 0x10000) / 0x400) ::
            (0xDC00 + (c - 0x10000) % 0x400) :: utf16Encode cs by
          simp [utf16Encode, utf16Units, if_neg (show ¬c < 0x10000 by omega)]]
        simp only [overwrite, hhi, hlo]
      · rw [if_neg hbig]
        have hlen2 : utf16LenSpec (c :: cs) = 1 + utf16LenSpec cs := by
          simp only [utf16LenSpec, List.map_cons, List.sum_cons,
            if_pos (show c < 0x10000 by omega)]
        rw [hlen2] at hlen
        have hi : i < data.length := by omega
        have hch : c % 2 ^ 16 = c := Nat.mod_eq_of_lt (by omega)
        rw [arrayWrite_lt data _ hi]
        dsimp only
        rw [ih _ _ hcs2 (by simp only [List.length_set]; omega)]
        refine congrArg some ?_
        rw [show utf16Encode (c :: cs) = c :: utf16Encode cs by
          simp [utf16Encode, utf16Units, if_pos (show c < 0x10000 by omega)]]
        simp only [overwrite, hch]

end Obfuscate

namespace Obfuscate

/-- C3: for well-formed UTF-8 input, `len` returns 1 unit per code point
below `0x10000` and 2 per code point at or above it, and `encode` with
`LEN = len(s)` emits, in code-point order, the code point itself as one
unit, or the surrogate pair `(0xD800 + (c - 0x10000) / 0x400,
0xDC00 + (c - 0x10000) % 0x400)`. -/
theorem wide_len_encode_spec (cs : List Nat) (hcs : ∀ c ∈ cs, ScalarValue c) :
    Wide.len (utf8Encode cs) = utf16LenSpec cs ∧
      Wide.encode (Wide.len (utf8Encode cs)) (utf8Encode cs) = some (utf16Encode cs) := by
  have h1 : ∀ c ∈ cs, c < 0x110000 := fun c h => (hcs c h).1
  have hnil : Wide.next ([] : List Nat) = none := rfl
  have hlen : Wide.len (utf8Encode cs) = utf16LenSpec cs := by
    have h := len_encode_append cs [] hnil h1
    simpa using h
  refine ⟨hlen, ?_⟩
  rw [Wide.encode, hlen]
  have hloop := encodeLoop_spec cs [] hnil (List.replicate (utf16LenSpec cs) 0) 0 h1 (by simp)
  rw [List.append_nil] at hloop
  rw [hloop]
  refine congrArg some ?_
  rw [show List.replicate (utf16LenSpec cs) 0 = List.replicate (utf16Encode cs).length 0 by
    rw [utf16Encode_length]]
  exact overwrite_full (utf16Encode cs)

theorem wide_len_encode_spec_witness :
    (∀ c ∈ [0x65, 0x1F600], ScalarValue c) ∧
      (Wide.len (utf8Encode [0x65, 0x1F600]) = utf16LenSpec [0x65, 0x1F600] ∧
        Wide.encode (Wide.len (utf8Encode [0x65, 0x1F600])) (utf8Encode [0x65, 0x1F600]) =
          some (utf16Encode [0x65, 0x1F600])) :=
  ⟨by decide, wide_len_encode_spec _ (by decide)⟩

/-- C9: at a malformed position (lead byte matching none of the four
patterns, or with too few trailing bytes) the decoding step yields `none`,
and `len`/`encode` stop there without error, counting and emitting exactly
the code points decoded before that position. -/
theorem wide_malformed_stops (cs bad : List Nat) (hcs : ∀ c ∈ cs, ScalarValue c)
    (hbad : malformedAt bad = true) :
    Wide.next bad = none ∧
      Wide.len (utf8Encode cs ++ bad) = utf16LenSpec cs ∧
      Wide.encode (Wide.len (utf8Encode cs ++ bad)) (utf8Encode cs ++ bad) =
        some (utf16Encode cs) := by
  have hn := next_none_of_malformed bad hbad
  have h1 : ∀ c ∈ cs, c < 0x110000 := fun c h => (hcs c h).1
  have hlen := len_encode_append cs bad hn h1
  refine ⟨hn, hlen, ?_⟩
  rw [Wide.encode, hlen]
  rw [encodeLoop_spec cs bad hn (List.replicate (utf16LenSpec cs) 0) 0 h1 (by simp)]
  refine congrArg some ?_
  rw [show List.replicate (utf16LenSpec cs) 0 = List.replicate (utf16Encode cs).length 0 by
    rw [utf16Encode_length]]
  exact overwrite_full (utf16Encode cs)

theorem wide_malformed_stops_witness :
    ((∀ c ∈ [0x41], ScalarValue c) ∧ malformedAt [0xC3] = true) ∧
      (Wide.next [0xC3] = none ∧
        Wide.len (utf8Encode [0x41] ++ [0xC3]) = utf16LenSpec [0x41] ∧
        Wide.encode (Wide.len (utf8Encode [0x41] ++ [0xC3])) (utf8Encode [0x41] ++ [0xC3]) =
          some (utf16Encode [0x41])) :=
  ⟨⟨by decide, by decide⟩, wide_malformed_stops [0x41] [0xC3] (by decide) (by decide)⟩

/-- C10: with `LEN = len(s)` on well-formed UTF-8 input, every write in
`encode` is in bounds (the bounds-checked embedding never reaches its
out-of-bounds case), so `encode` is panic-free. -/
theorem wide_encode_in_bounds (cs : List Nat) (hcs : ∀ c ∈ cs, ScalarValue c) :
    (Wide.encode (Wide.len (utf8Encode cs)) (utf8Encode cs)).isSome = true := by
  have h1 : ∀ c ∈ cs, c < 0x110000 := fun c h => (hcs c h).1
  have hnil : Wide.next ([] : List Nat) = none := rfl
  have hlen : Wide.len (utf8Encode cs) = utf16LenSpec cs := by
    have h := len_encode_append cs [] hnil h1
    simpa using h
  rw [Wide.encode, hlen]
  have hloop := encodeLoop_spec cs [] hnil (List.replicate (utf16LenSpec cs) 0) 0 h1 (by simp)
  rw [List.append_nil] at hloop
  rw [hloop]
  rfl

theorem wide_encode_in_bounds_witness :
    (∀ c ∈ [0x1F600], ScalarValue c) ∧
      (Wide.encode (Wide.len (utf8Encode [0x1F600])) (utf8Encode [0x1F600])).isSome = true :=
  ⟨by decide, wide_encode_in_bounds [0x1F600] (by decide)⟩

end Obfuscate
